import Mathlib

/-!
Shallow embedding of the moonis server core (a small Redis-style key-value
store) and proofs about it.

Modelling conventions:
* a Rust `Vec<u8>` / byte buffer is a `List Nat` whose elements are byte
  values (0..255 for real inputs; the definitions are total on all `Nat`);
* a Rust `String` is a `List Nat` of Unicode scalar values (its `char`s);
  conversion to bytes goes through `utf8EncodeStr`, conversion from bytes
  through `utf8Decode` (which models `std::str::from_utf8`'s strict
  validation: rejects continuation-byte starts, overlong forms, surrogates
  and values above U+10FFFF);
* `i64` is `Int`; the one place the source converts `usize` to `i64` with
  an `as` cast (`Storage::append`) is modelled by `i64cast` with the exact
  wrap-around semantics.
-/

namespace Moonis

/-- ASCII string literal as a list of code points (= its UTF-8 bytes,
since all characters used are ASCII). -/
def ascii (s : String) : List Nat := s.data.map Char.toNat

/-- Rust `char::is_whitespace` (the Unicode White_Space property), used by
`str::trim` and `str::split_whitespace` in the source. -/
def isRustWhitespace (c : Nat) : Bool :=
  c = 0x09 || c = 0x0A || c = 0x0B || c = 0x0C || c = 0x0D || c = 0x20 ||
  c = 0x85 || c = 0xA0 || c = 0x1680 ||
  (0x2000 ≤ c && c ≤ 0x200A) ||
  c = 0x2028 || c = 0x2029 || c = 0x202F || c = 0x205F || c = 0x3000

/-- Is `b` a UTF-8 continuation byte (`10xxxxxx`)? -/
def isCont (b : Nat) : Bool := 0x80 ≤ b && b ≤ 0xBF

/-- Continuation of a 2-byte UTF-8 sequence with lead byte `b`
(C2..DF). -/
def utf8Dec2 (b : Nat) : List Nat → Option (Nat × List Nat)
  | b2 :: rest =>
    if isCont b2 then some ((b - 0xC0) * 0x40 + (b2 - 0x80), rest) else none
  | [] => none

/-- Continuation of a 3-byte UTF-8 sequence with lead byte `b` (E0..EF);
lead E0 forbids overlong forms (b2 ≥ A0), lead ED forbids surrogates
(b2 ≤ 9F). -/
def utf8Dec3 (b : Nat) : List Nat → Option (Nat × List Nat)
  | b2 :: b3 :: rest =>
    if (if b = 0xE0 then 0xA0 ≤ b2 && b2 ≤ 0xBF
        else if b = 0xED then 0x80 ≤ b2 && b2 ≤ 0x9F
        else isCont b2) && isCont b3 then
      some ((b - 0xE0) * 0x1000 + (b2 - 0x80) * 0x40 + (b3 - 0x80), rest)
    else none
  | _ => none

/-- Continuation of a 4-byte UTF-8 sequence with lead byte `b` (F0..F4);
lead F0 forbids overlong forms (b2 ≥ 90), lead F4 caps the value at
U+10FFFF (b2 ≤ 8F). -/
def utf8Dec4 (b : Nat) : List Nat → Option (Nat × List Nat)
  | b2 :: b3 :: b4 :: rest =>
    if (if b = 0xF0 then 0x90 ≤ b2 && b2 ≤ 0xBF
        else if b = 0xF4 then 0x80 ≤ b2 && b2 ≤ 0x8F
        else isCont b2) && isCont b3 && isCont b4 then
      some ((b - 0xF0) * 0x40000 + (b2 - 0x80) * 0x1000 +
              (b3 - 0x80) * 0x40 + (b4 - 0x80), rest)
    else none
  | _ => none

/-- Decode one UTF-8 scalar value starting at lead byte `b`, returning it
and the remaining bytes.  A continuation byte as a start (80..BF) and the
overlong 2-byte leads C0/C1 are rejected, as are leads above F4. -/
def utf8Step (b : Nat) (rest : List Nat) : Option (Nat × List Nat) :=
  if b < 0x80 then some (b, rest)
  else if b < 0xC2 then none
  else if b < 0xE0 then utf8Dec2 b rest
  else if b < 0xF0 then utf8Dec3 b rest
  else if b < 0xF5 then utf8Dec4 b rest
  else none

/-- The decoding loop of `utf8Decode`; the fuel bounds the number of
scalar values (any fuel at least the byte length is enough, every step
consuming at least the lead byte). -/
def utf8DecodeGo : Nat → List Nat → Option (List Nat)
  | _, [] => some []
  | 0, _ :: _ => none
  | fuel + 1, b :: rest =>
    match utf8Step b rest with
    | some (c, rest2) =>
      match utf8DecodeGo fuel rest2 with
      | some cs => some (c :: cs)
      | none => none
    | none => none

/-- Strict UTF-8 decoding of a byte list into Unicode scalar values; models
`std::str::from_utf8` (`None` = `Err`).  Overlong encodings, surrogates
(U+D800..U+DFFF) and values above U+10FFFF are rejected, exactly as Rust
does. -/
def utf8Decode (l : List Nat) : Option (List Nat) := utf8DecodeGo l.length l

/-- UTF-8 encoding of one Unicode scalar value, models `char` encoding in
`String::into_bytes` / `str::as_bytes`. -/
def utf8EncodeChar (c : Nat) : List Nat :=
  if c < 0x80 then [c]
  else if c < 0x800 then [0xC0 + c / 0x40, 0x80 + c % 0x40]
  else if c < 0x10000 then
    [0xE0 + c / 0x1000, 0x80 + c / 0x40 % 0x40, 0x80 + c % 0x40]
  else
    [0xF0 + c / 0x40000, 0x80 + c / 0x1000 % 0x40, 0x80 + c / 0x40 % 0x40,
     0x80 + c % 0x40]

/-- UTF-8 encoding of a string (list of scalar values) to bytes. -/
def utf8EncodeStr (s : List Nat) : List Nat := (s.map utf8EncodeChar).flatten

/-- Rust `str::trim`: strip leading and trailing whitespace characters. -/
def strTrim (s : List Nat) : List Nat :=
  ((s.dropWhile isRustWhitespace).reverse.dropWhile isRustWhitespace).reverse

/-- Worker for `splitWhitespace`, accumulating the current word reversed. -/
def splitWsGo : List Nat → List Nat → List (List Nat)
  | cur, [] => if cur = [] then [] else [cur.reverse]
  | cur, c :: rest =>
    if isRustWhitespace c then
      if cur = [] then splitWsGo [] rest else cur.reverse :: splitWsGo [] rest
    else splitWsGo (c :: cur) rest

/-- Rust `str::split_whitespace`: split on runs of whitespace, dropping
empty pieces. -/
def splitWhitespace (s : List Nat) : List (List Nat) := splitWsGo [] s

/-- Rust `str::parse::<i64>()`: optional sign, one or more ASCII digits,
with an `i64` range check (`Err` on overflow). -/
def parseI64 (s : List Nat) : Option Int :=
  match s with
  | [] => none
  | c :: rest =>
    let neg : Bool := c = 45
    let digits : List Nat := if c = 43 || c = 45 then rest else s
    if digits = [] then none
    else if digits.all (fun d => 48 ≤ d && d ≤ 57) then
      let n : Nat := digits.foldl (fun acc d => acc * 10 + (d - 48)) 0
      let v : Int := if neg then -(n : Int) else (n : Int)
      if -(2 ^ 63) ≤ v ∧ v < 2 ^ 63 then some v else none
    else none

/-! ## Wire value model (src/types.rs) -/

/-- `RespValue` from src/types.rs.  `simpleString` and the error code /
detail carry Rust `String`s (lists of scalar values); `bulkString` carries
raw bytes (`BulkString(Vec<u8>)`). -/
inductive RespValue where
  | simpleString (s : List Nat)
  | error (code : List Nat) (detail : Option (List Nat))
  | integer (n : Int)
  | bulkString (b : List Nat)
  | array (xs : List RespValue)
  | null

/-! ## Encoder (src/encoder.rs) -/

/-- Recursion worker for `natDec`; the first argument is fuel bounding the
digit count (any fuel at least the value itself is enough). -/
def natDecAux : Nat → Nat → List Nat
  | 0, n => [48 + n % 10]
  | fuel + 1, n =>
    if n < 10 then [48 + n] else natDecAux fuel (n / 10) ++ [48 + n % 10]

/-- Decimal digit bytes of a natural number, most significant first;
models `usize::to_string` / the digits of `i64::to_string`. -/
def natDec (n : Nat) : List Nat := natDecAux n n

/-- Byte rendering of `i64::to_string` for a signed value. -/
def intDecBytes (n : Int) : List Nat :=
  if n < 0 then 45 :: natDec (-n).toNat else natDec n.toNat

/-- `encode_string` from src/encoder.rs: prefix byte, then the string's
UTF-8 bytes (`String::into_bytes`), then CRLF.  The source appends to a
`BytesMut`; appending is modelled by returning the appended bytes. -/
def encode_string (pfx : Nat) (value : List Nat) : List Nat :=
  pfx :: utf8EncodeStr value ++ [13, 10]

mutual

/-- `encode` from src/encoder.rs: the wire bytes appended to the output
buffer for one `RespValue`. -/
def encode : RespValue → List Nat
  | .null => [36, 45, 49, 13, 10]
  | .simpleString value => encode_string 43 value
  | .error value _description => encode_string 45 value
  | .integer value => encode_string 58 (intDecBytes value)
  | .bulkString value =>
    36 :: natDec value.length ++ [13, 10] ++ value ++ [13, 10]
  | .array values =>
    42 :: natDec values.length ++ [13, 10] ++ encodeList values

/-- The `values.drain(..).for_each(encode)` loop of the `Array` arm. -/
def encodeList : List RespValue → List Nat
  | [] => []
  | v :: rest => encode v ++ encodeList rest

end

/-! ## Decoder (src/parser.rs)

The source parses with the `combine` library's resumable partial-state
parsers.  The embedding is the equivalent restart-from-buffer reading of
the same grammar: a parse step on a byte buffer either finishes with a
value and a consumed-byte count, or reports that the buffer is an
incomplete prefix of a message, or fails. -/

/-- Result of running a parser on a buffer. -/
inductive PRes (α : Type) where
  | done (a : α) (consumed : Nat)
  | incomplete
  | error
deriving DecidableEq, Repr

/-- Index of the first `\r\n` pair, if any (`take_until_bytes(b"\r\n")`). -/
def findCRLF : List Nat → Option Nat
  | [] => none
  | c :: rest =>
    if c = 13 ∧ rest.head? = some 10 then some 0
    else (findCRLF rest).map (· + 1)

/-- `line()` from src/parser.rs at the byte level: the bytes before the
first CRLF, consuming them and the CRLF.  (UTF-8 validation of the line is
done by its callers below, as in the source's `and_then`.) -/
def parseLine (input : List Nat) : PRes (List Nat) :=
  match findCRLF input with
  | some i => .done (input.take i) (i + 2)
  | none => .incomplete

/-- `integer()` from src/parser.rs: a line, UTF-8 checked, trimmed, parsed
as `i64`; parse failure is a (non-resumable) stream error. -/
def parseInteger (input : List Nat) : PRes Int :=
  match parseLine input with
  | .done lineBytes n =>
    match utf8Decode lineBytes with
    | some chars =>
      match parseI64 (strTrim chars) with
      | some v => .done v n
      | none => .error
    | none => .error
  | .incomplete => .incomplete
  | .error => .error

/-- `bulk()` from src/parser.rs (the part after the `$` byte): a length
line; negative length yields `Null`, otherwise exactly `length` body bytes
followed by CRLF. -/
def parseBulk (input : List Nat) : PRes RespValue :=
  match parseInteger input with
  | .done len n =>
    if len < 0 then .done .null n
    else
      let l := len.toNat
      let rest := input.drop n
      if rest.length < l then .incomplete
      else
        match rest.drop l with
        | 13 :: 10 :: _ => .done (.bulkString (rest.take l)) (n + l + 2)
        | 13 :: [] => .incomplete
        | [] => .incomplete
        | _ => .error
  | .incomplete => .incomplete
  | .error => .error

/-- The `count_min_max(length, length, byte(b'$').with(bulk()))` loop of
the array arm: exactly `n` occurrences of a `$`-prefixed bulk string. -/
def parseArrayElems : Nat → List Nat → PRes (List RespValue)
  | 0, _ => .done [] 0
  | n + 1, input =>
    match input with
    | [] => .incomplete
    | 36 :: rest =>
      match parseBulk rest with
      | .done v c =>
        match parseArrayElems n (rest.drop c) with
        | .done vs c2 => .done (v :: vs) (1 + c + c2)
        | .incomplete => .incomplete
        | .error => .error
      | .incomplete => .incomplete
      | .error => .error
    | _ :: _ => .error

/-- `resp_parser()` from src/parser.rs: `choice((byte(b'*').with(array()),
simple_command()))`.  A leading `*` commits to the array branch (a length
line, then that many `$`-bulks; negative length is `Null`); any other
first byte is a simple command line, whitespace-split into an array of
bulk strings. -/
def parseResp (input : List Nat) : PRes RespValue :=
  match input with
  | [] => .incomplete
  | 42 :: rest =>
    match parseInteger rest with
    | .done len n =>
      if len < 0 then .done .null (1 + n)
      else
        match parseArrayElems len.toNat (rest.drop n) with
        | .done vs c => .done (.array vs) (1 + n + c)
        | .incomplete => .incomplete
        | .error => .error
    | .incomplete => .incomplete
    | .error => .error
  | _ :: _ =>
    match parseLine input with
    | .done lineBytes n =>
      match utf8Decode lineBytes with
      | some chars =>
        .done (.array ((splitWhitespace chars).map
          (fun w => .bulkString (utf8EncodeStr w)))) n
      | none => .error
    | .incomplete => .incomplete
    | .error => .error

/-! ## Command interpreter (src/types.rs, `TryFrom<RespValue> for RedisCmd`) -/

/-- `RedisCmd` from src/types.rs (`Exists` is renamed, `exists` not being
a usable name here). -/
inductive RedisCmd where
  | ping (v : Option (List Nat))
  | get (k : List Nat)
  | delete (ks : List (List Nat))
  | set (k v : List Nat)
  | append (k v : List Nat)
  | keys (p : List Nat)
  | existsCmd (k : List Nat)
  | flushAll
  | command
deriving DecidableEq, Repr

/-- `RespValue::to_string` from src/types.rs: `SimpleString` yields its
text, `BulkString` its UTF-8 decoding if valid, everything else `None`. -/
def RespValue.toText : RespValue → Option (List Nat)
  | .simpleString value => some value
  | .bulkString value => utf8Decode value
  | _ => none

/-- Rust `str::to_uppercase` on one character.  ASCII letters are mapped
to ASCII; of the non-ASCII characters, exactly those whose Unicode
uppercasing produces ASCII are spelled out (ß, ı, ſ and the ﬀ/ﬁ/ﬂ/ﬃ/ﬄ/ﬅ/ﬆ
ligatures), because the uppercased string is only ever compared against
ASCII command literals; all remaining characters are left unchanged, which
is observationally equivalent for those comparisons since their true
uppercase forms are never ASCII. -/
def charUpper (c : Nat) : List Nat :=
  if 97 ≤ c ∧ c ≤ 122 then [c - 32]
  else if c = 0xDF then [83, 83]
  else if c = 0x131 then [73]
  else if c = 0x17F then [83]
  else if c = 0xFB00 then [70, 70]
  else if c = 0xFB01 then [70, 73]
  else if c = 0xFB02 then [70, 76]
  else if c = 0xFB03 then [70, 70, 73]
  else if c = 0xFB04 then [70, 70, 76]
  else if c = 0xFB05 then [83, 84]
  else if c = 0xFB06 then [83, 84]
  else [c]

/-- Rust `str::to_uppercase` on a string. -/
def strUpper (s : List Nat) : List Nat := (s.map charUpper).flatten

/-- Result of `TryFrom<RespValue> for RedisCmd`.  `panic` is the
`unreachable!` in the DEL arm: not an `Err` return but a crash of the
converting process. -/
inductive TryFromResult where
  | ok (c : RedisCmd)
  | err (msg : String)
  | panic
deriving DecidableEq, Repr

/-- `get_next_value` from src/types.rs: pop the front of the argument
queue; it must exist and be a `BulkString`.  Returns the value and the
remaining queue. -/
def get_next_value : List RespValue → Except String (List Nat × List RespValue)
  | [] => .error "Not enough arguments"
  | .bulkString value :: rest => .ok (value, rest)
  | _ :: _ => .error "Invalid argument, must be BulkString"

/-- The `resp.drain(..).map(...)` of the DEL arm: every remaining element
must be a `BulkString`; any other element hits `unreachable!` (`none`). -/
def delKeys : List RespValue → Option (List (List Nat))
  | [] => some []
  | .bulkString key :: rest =>
    match delKeys rest with
    | some ks => some (key :: ks)
    | none => none
  | _ :: _ => none

/-- `try_from` in `impl TryFrom<RespValue> for RedisCmd` (src/types.rs):
the input must be an array; its first element, uppercased via
`to_string().unwrap_or_default().to_uppercase()`, selects the command and
the remaining elements are its arguments. -/
def tryFrom (resp : RespValue) : TryFromResult :=
  match resp with
  | .array elems =>
    match elems with
    | [] => .err "No command specified"
    | cmd :: rest =>
      let cmdStr := strUpper ((cmd.toText).getD [])
      if cmdStr = ascii "GET" then
        match get_next_value rest with
        | .ok (k, _) => .ok (.get k)
        | .error e => .err e
      else if cmdStr = ascii "SET" then
        match get_next_value rest with
        | .ok (k, rest2) =>
          match get_next_value rest2 with
          | .ok (v, _) => .ok (.set k v)
          | .error _ => .err "Value must be set for set CMD"
        | .error _ => .err "Can not get the key of set CMD"
      else if cmdStr = ascii "DEL" then
        match delKeys rest with
        | some ks => .ok (.delete ks)
        | none => .panic
      else if cmdStr = ascii "APPEND" then
        match get_next_value rest with
        | .ok (k, rest2) =>
          match get_next_value rest2 with
          | .ok (v, _) => .ok (.append k v)
          | .error _ => .err "Value must be set for append CMD"
        | .error _ => .err "Can not get the key of append CMD"
      else if cmdStr = ascii "PING" then
        match get_next_value rest with
        | .ok (v, _) => .ok (.ping (some v))
        | .error _ => .ok (.ping none)
      else if cmdStr = ascii "KEYS" then
        match get_next_value rest with
        | .ok (p, _) => .ok (.keys p)
        | .error e => .err e
      else if cmdStr = ascii "EXISTS" then
        match get_next_value rest with
        | .ok (k, _) => .ok (.existsCmd k)
        | .error e => .err e
      else if cmdStr = ascii "FLUSHALL" then .ok .flushAll
      else if cmdStr = ascii "COMMAND" then .ok .command
      else if cmdStr = [] then .err "No command specified"
      else .err "Invalid Command"
  | _ => .err "Invalid Command: not an array"

/-! ## Store (src/storage.rs)

The `HashMap<RedisKey, RedisValue>` is modelled as an association list of
(key, value) pairs; every map produced by the operations keeps its keys
distinct (the `Nodup` hypotheses of the theorems below), which is the
`HashMap` representation invariant. -/

/-- Store contents: key/value pairs of byte strings. -/
abbrev StoreMap := List (List Nat × List Nat)

/-- `HashMap::get(&key).cloned()`. -/
def hmLookup : StoreMap → List Nat → Option (List Nat)
  | [], _ => none
  | e :: rest, k => if e.1 = k then some e.2 else hmLookup rest k

/-- In-place replacement of the value stored at `k` (the effect of
writing through `HashMap::entry` / `insert` on a present key). -/
def hmUpdate (m : StoreMap) (k v : List Nat) : StoreMap :=
  m.map (fun e => if e.1 = k then (e.1, v) else e)

/-- `HashMap::remove(&key)`: drop the entry for `k` (at most one exists
under the representation invariant). -/
def hmErase (m : StoreMap) (k : List Nat) : StoreMap :=
  m.eraseP (fun e => decide (e.1 = k))

/-- `Storage::get`. -/
def storGet (m : StoreMap) (key : List Nat) : Option (List Nat) :=
  hmLookup m key

/-- `Storage::set`: `store.insert(key, value).is_some()`. -/
def storSet (m : StoreMap) (key value : List Nat) : StoreMap × Bool :=
  match hmLookup m key with
  | some _ => (hmUpdate m key value, true)
  | none => (m ++ [(key, value)], false)

/-- The `for key in keys` loop of `Storage::del`, with the running
`removed` counter. -/
def storDelGo : StoreMap → List (List Nat) → Int → StoreMap × Int
  | m, [], removed => (m, removed)
  | m, key :: rest, removed =>
    if (hmLookup m key).isSome then storDelGo (hmErase m key) rest (removed + 1)
    else storDelGo m rest removed

/-- `Storage::del`: remove each listed key that is present, counting the
removals. -/
def storDel (m : StoreMap) (keys : List (List Nat)) : StoreMap × Int :=
  storDelGo m keys 0

/-- `usize as i64` (used by `Storage::append` for the returned length). -/
def i64cast (n : Nat) : Int :=
  if n % 2 ^ 64 < 2 ^ 63 then ((n % 2 ^ 64 : Nat) : Int)
  else ((n % 2 ^ 64 : Nat) : Int) - 2 ^ 64

/-- `Storage::append`: `entry(key).or_insert_with(empty)` then
`BulkString::append` (byte concatenation, src/types.rs), returning the
new length as `i64`. -/
def storAppend (m : StoreMap) (key value : List Nat) : StoreMap × Int :=
  match hmLookup m key with
  | some cur => (hmUpdate m key (cur ++ value), i64cast (cur ++ value).length)
  | none => (m ++ [(key, value)], i64cast value.length)

/-- `Storage::keys`: the pattern argument is accepted and ignored. -/
def storKeys (m : StoreMap) (_pattern : List Nat) : List (List Nat) :=
  m.map Prod.fst

/-- `Storage::exists`: `contains_key` as 0 or 1. -/
def storExists (m : StoreMap) (key : List Nat) : Int :=
  if (hmLookup m key).isSome then 1 else 0

/-! ## Connection handler request processing (src/client.rs) -/

/-- `ClientProcess::process`: one decoded request value to one response
value, with the store before and after.  `none` is the propagated panic of
the DEL `unreachable!` (the handler aborts instead of producing a
response). -/
def process (store : StoreMap) (resp : RespValue) : Option (StoreMap × RespValue) :=
  match tryFrom resp with
  | .err _ => some (store, .error (ascii "INVALID_COMMAND") none)
  | .panic => none
  | .ok cmd =>
    match cmd with
    | .ping none => some (store, .simpleString (ascii "PONG"))
    | .ping (some value) => some (store, .bulkString value)
    | .get key =>
      match storGet store key with
      | some value => some (store, .bulkString value)
      | none => some (store, .null)
    | .set key value => some ((storSet store key value).1, .simpleString (ascii "OK"))
    | .delete keys =>
      let r := storDel store keys
      some (r.1, .integer r.2)
    | .append key value =>
      let r := storAppend store key value
      some (r.1, .integer r.2)
    | .keys pat =>
      some (store, .array ((storKeys store pat).map (fun k => .bulkString k)))
    | .existsCmd key => some (store, .integer (storExists store key))
    | .flushAll => some ([], .simpleString (ascii "OK"))
    | .command => some (store, .error (ascii "NOT_IMPLEMENTED") none)

/-- One request through the full pipeline: decode the request bytes,
process the decoded value, encode the response (`none` when the bytes are
not one complete request, or on the DEL panic). -/
def serverStep (store : StoreMap) (req : List Nat) : Option (StoreMap × List Nat) :=
  match parseResp req with
  | .done v _ =>
    match process store v with
    | some (store2, resp) => some (store2, encode resp)
    | none => none
  | _ => none

/-- A sequence of requests through `serverStep`, collecting the response
bytes of each. -/
def serverRun (store : StoreMap) : List (List Nat) → Option (StoreMap × List (List Nat))
  | [] => some (store, [])
  | req :: rest =>
    match serverStep store req with
    | some (store2, out) =>
      match serverRun store2 rest with
      | some (store3, outs) => some (store3, out :: outs)
      | none => none
    | none => none

/-! ## Reader loop (src/client.rs, `RespReader::next`)

`RespReader` keeps an accumulation buffer and the `combine` partial-parse
state, repeatedly decoding from the buffer and reading more bytes when a
decode reports an incomplete message.  The opaque partial state is
modelled by keeping the unconsumed bytes in the buffer and re-running the
grammar from the buffer start on resume (the observationally equivalent
strategy the specification's design notes describe); a decode error is
fatal to the connection. -/

/-- How a drain of the buffer ended: buffer exhausted, waiting for more
bytes of an incomplete message, or a fatal decode error. -/
inductive DrainEnd where
  | finished
  | needMore
  | failed
deriving DecidableEq, Repr

/-- The inner `while self.buffer.len() > 0` loop of `RespReader::next`:
decode values out of the buffer until it is empty, incomplete, or in
error.  Returns the decoded values in order, the total bytes consumed,
and how the loop ended.  The fuel argument bounds the iteration count;
any fuel above the buffer length is enough, since every completed decode
consumes at least one byte. -/
def drainGo : Nat → List Nat → List RespValue × Nat × DrainEnd
  | 0, _ => ([], 0, .needMore)
  | _ + 1, [] => ([], 0, .finished)
  | fuel + 1, b :: rest =>
    match parseResp (b :: rest) with
    | .done v n =>
      let r := drainGo fuel ((b :: rest).drop n)
      (v :: r.1, n + r.2.1, r.2.2)
    | .incomplete => ([], 0, .needMore)
    | .error => ([], 0, .failed)

/-- Drain one buffer completely. -/
def drain (buf : List Nat) : List RespValue × Nat × DrainEnd :=
  drainGo (buf.length + 1) buf

/-- Feeding the transport's reads ("chunks") one at a time: drain the
current buffer; on a fatal error stop; otherwise append the next chunk to
the unconsumed bytes and continue.  Returns every decoded value in
arrival order, the total consumed byte count, and the final state. -/
def feedChunks : List (List Nat) → List Nat → List RespValue × Nat × DrainEnd
  | [], buf => drain buf
  | chunk :: rest, buf =>
    let r := drain buf
    match r.2.2 with
    | .failed => r
    | _ =>
      let r2 := feedChunks rest (buf.drop r.2.1 ++ chunk)
      (r.1 ++ r2.1, r.2.1 + r2.2.1, r2.2.2)

/-! ## Theorems -/

/-- C1 (status: code bug).  The request bytes `*2\r\n$3\r\nDEL\r\n$-1\r\n`
are decoded by the parser to `Array [BulkString "DEL", Null]`, and the
command interpreter's conversion of that value hits the `unreachable!` in
the DEL arm — a panic, not a rejection value — contradicting the claim
(and the specification) that a malformed request never crashes past the
interpreter boundary. -/
theorem claim_C1_del_null_panics :
    parseResp (ascii "*2\r\n$3\r\nDEL\r\n$-1\r\n") =
      .done (.array [.bulkString (ascii "DEL"), .null]) 18 ∧
    tryFrom (.array [.bulkString (ascii "DEL"), .null]) = .panic :=
  ⟨rfl, rfl⟩

/-- C8: the enumerate-keys operation returns exactly the keys present in
the store, and its result does not depend on the pattern argument. -/
theorem claim_C8_keys_ignore_pattern (m : StoreMap) (p : List Nat) :
    (∀ k, k ∈ storKeys m p ↔ (hmLookup m k).isSome) ∧
    ∀ p₁ p₂, storKeys m p₁ = storKeys m p₂ := by
  constructor
  · intro k
    induction m with
    | nil => simp [storKeys, hmLookup]
    | cons e rest ih =>
      by_cases h : e.1 = k
      · simp [storKeys, hmLookup, h]
      · simpa [storKeys, hmLookup, h, Ne.symm h] using ih
  · intro p₁ p₂
    rfl

/-- All bytes produced by `natDecAux` are ASCII digits. -/
theorem natDecAux_digits (fuel : Nat) :
    ∀ n, ∀ c ∈ natDecAux fuel n, 48 ≤ c ∧ c ≤ 57 := by
  induction fuel with
  | zero =>
    intro n c hc
    simp only [natDecAux, List.mem_singleton] at hc
    subst hc
    have : n % 10 < 10 := Nat.mod_lt _ (by omega)
    omega
  | succ fuel ih =>
    intro n c hc
    simp only [natDecAux] at hc
    split at hc
    · simp only [List.mem_singleton] at hc
      omega
    · rcases List.mem_append.mp hc with h | h
      · exact ih _ c h
      · simp only [List.mem_singleton] at h
        have : n % 10 < 10 := Nat.mod_lt _ (by omega)
        omega

/-- All bytes of `natDec` are ASCII digits. -/
theorem natDec_digits (n : Nat) : ∀ c ∈ natDec n, 48 ≤ c ∧ c ≤ 57 :=
  natDecAux_digits n n

/-- Encoding a list of ASCII code points is the identity on the bytes. -/
theorem utf8EncodeStr_ascii (s : List Nat) (h : ∀ c ∈ s, c < 128) :
    utf8EncodeStr s = s := by
  induction s with
  | nil => rfl
  | cons c rest ih =>
    have hc : c < 128 := h c (by simp)
    simp only [utf8EncodeStr, List.map_cons, List.flatten_cons]
    rw [show utf8EncodeChar c = [c] by simp [utf8EncodeChar, hc]]
    simp only [List.singleton_append, List.cons.injEq, true_and]
    exact ih (fun x hx => h x (by simp [hx]))

/-- The `encodeList` loop is elementwise encoding, concatenated. -/
theorem encodeList_eq (vs : List RespValue) :
    encodeList vs = (vs.map encode).flatten := by
  induction vs with
  | nil => rfl
  | cons v rest ih => simp [encodeList, ih]

/-- C4: the encoder is total (a function on all wire values) and emits
exactly the specified bytes for each variant: `$-1\r\n` for Null, `+s\r\n`
for a status, `-code\r\n` for an error (detail never serialized),
`:n\r\n` in signed decimal for an integer, `$<len>\r\n<bytes>\r\n` for a
bulk string with its exact byte length, and `*<len>\r\n` followed by the
elements' encodings in order for an array. -/
theorem claim_C4_encoder_bytes :
    (encode .null = ascii "$-1\r\n") ∧
    (∀ s, encode (.simpleString s) = 43 :: (utf8EncodeStr s ++ [13, 10])) ∧
    (∀ code detail, encode (.error code detail) =
      45 :: (utf8EncodeStr code ++ [13, 10])) ∧
    (∀ n, encode (.integer n) = 58 :: (intDecBytes n ++ [13, 10])) ∧
    (∀ b, encode (.bulkString b) =
      36 :: (natDec b.length ++ [13, 10] ++ b ++ [13, 10])) ∧
    (∀ xs, encode (.array xs) =
      42 :: (natDec xs.length ++ [13, 10] ++ (xs.map encode).flatten)) := by
  refine ⟨rfl, fun s => rfl, fun code detail => rfl, fun n => ?_, fun b => rfl, fun xs => ?_⟩
  · have hd : ∀ c ∈ intDecBytes n, c < 128 := by
      intro c hc
      unfold intDecBytes at hc
      split at hc
      · rcases List.mem_cons.mp hc with hc | hc
        · omega
        · have := natDec_digits _ c hc
          omega
      · have := natDec_digits _ c hc
        omega
    show encode_string 58 (intDecBytes n) = _
    unfold encode_string
    rw [utf8EncodeStr_ascii _ hd]
    exact rfl
  · show 42 :: (natDec xs.length ++ [13, 10] ++ encodeList xs) = _
    rw [encodeList_eq]

/-- C5: the end-to-end scenario from an empty store.  `PING` answers
`+PONG\r\n`; the binary `SET k v` answers `+OK\r\n`; `GET k` answers
`$1\r\nv\r\n`; the simple-command `GET missing` answers `$-1\r\n`;
`FLUSHALL` then `GET k` answers `$-1\r\n`; the unknown command `FOO`
produces an Error wire value (encoded `-INVALID_COMMAND\r\n`) and the
following request is still processed. -/
theorem claim_C5_scenario :
    serverRun []
      [ascii "PING\r\n",
       ascii "*3\r\n$3\r\nSET\r\n$1\r\nk\r\n$1\r\nv\r\n",
       ascii "*2\r\n$3\r\nGET\r\n$1\r\nk\r\n",
       ascii "GET missing\r\n",
       ascii "*1\r\n$8\r\nFLUSHALL\r\n",
       ascii "GET k\r\n",
       ascii "FOO\r\n",
       ascii "PING\r\n"] =
      some ([],
        [ascii "+PONG\r\n", ascii "+OK\r\n", ascii "$1\r\nv\r\n",
         ascii "$-1\r\n", ascii "+OK\r\n", ascii "$-1\r\n",
         ascii "-INVALID_COMMAND\r\n", ascii "+PONG\r\n"]) ∧
    process [] (.array [.bulkString (ascii "FOO")]) =
      some ([], .error (ascii "INVALID_COMMAND") none) :=
  ⟨by decide, rfl⟩

/-- C10: whenever processing a request produces an Error wire value
response (a rejected or unimplemented command), the store is exactly the
store before the request. -/
theorem claim_C10_error_preserves_store (st : StoreMap) (v : RespValue)
    (st2 : StoreMap) (code : List Nat) (detail : Option (List Nat))
    (h : process st v = some (st2, .error code detail)) : st2 = st := by
  unfold process at h
  cases htf : tryFrom v with
  | err msg => rw [htf] at h; simp at h; exact h.1.symm
  | panic => rw [htf] at h; simp at h
  | ok cmd =>
    rw [htf] at h
    cases cmd with
    | ping o => cases o <;> simp at h
    | get k =>
      cases hg : storGet st k with
      | none => simp [hg] at h
      | some val => simp [hg] at h
    | delete ks => simp at h
    | set k val => simp at h
    | append k val => simp at h
    | keys p => simp at h
    | existsCmd k => simp at h
    | flushAll => simp at h
    | command => simp at h; exact h.1.symm

/-- Witness for C10 at a concrete input: an `Integer` request is not an
array, so interpretation rejects it and the (empty) store is unchanged. -/
theorem claim_C10_witness :
    process [] (.integer 0) = some ([], .error (ascii "INVALID_COMMAND") none) ∧
    ([] : StoreMap) = [] :=
  ⟨rfl, claim_C10_error_preserves_store [] (.integer 0) []
    (ascii "INVALID_COMMAND") none rfl⟩

/-- Each element produced by the bulk-string parser is a bulk string or
null. -/
theorem parseBulk_shape (input : List Nat) (v : RespValue) (c : Nat)
    (h : parseBulk input = .done v c) :
    (∃ s, v = .bulkString s) ∨ v = .null := by
  unfold parseBulk at h
  split at h
  · split at h
    · simp at h
      right
      exact h.1.symm
    · dsimp only at h
      split at h
      · simp at h
      · split at h
        · simp at h
          left
          exact ⟨_, h.1.symm⟩
        · simp at h
        · simp at h
        · simp at h
  · simp at h
  · simp at h

/-- Every element of a parsed array run is a bulk string or null. -/
theorem parseArrayElems_shape (n : Nat) :
    ∀ (input : List Nat) (vs : List RespValue) (c : Nat),
      parseArrayElems n input = .done vs c →
      ∀ x ∈ vs, (∃ s, x = .bulkString s) ∨ x = .null := by
  induction n with
  | zero =>
    intro input vs c h x hx
    simp [parseArrayElems] at h
    rw [h.1] at hx
    simp at hx
  | succ n ih =>
    intro input vs c h x hx
    unfold parseArrayElems at h
    split at h
    · simp at h
    · rename_i rest
      split at h
      · rename_i v1 c1 hb
        split at h
        · rename_i vs2 c2 ha
          simp at h
          rw [← h.1] at hx
          rcases List.mem_cons.mp hx with hx | hx
          · subst hx
            exact parseBulk_shape rest x c1 hb
          · exact ih _ vs2 c2 ha x hx
        · simp at h
        · simp at h
      · simp at h
      · simp at h
    · simp at h

/-- C9: every wire value the request parser yields at top level is either
Null (negative `*` length) or an array whose elements are each a bulk
string or Null; never a bare bulk string, integer, status or error, and
never a nested array. -/
theorem claim_C9_parser_shape (b : List Nat) (v : RespValue) (n : Nat)
    (h : parseResp b = .done v n) :
    v = .null ∨ ∃ xs, v = .array xs ∧
      ∀ x ∈ xs, (∃ s, x = .bulkString s) ∨ x = .null := by
  unfold parseResp at h
  split at h
  · simp at h
  · -- array branch (leading `*`)
    split at h
    · split at h
      · simp at h
        left
        exact h.1.symm
      · split at h
        · rename_i vs c ha
          simp at h
          right
          exact ⟨vs, h.1.symm, parseArrayElems_shape _ _ _ _ ha⟩
        · simp at h
        · simp at h
    · simp at h
    · simp at h
  · -- simple command branch
    split at h
    · split at h
      · rename_i chars hu
        simp at h
        right
        refine ⟨_, h.1.symm, ?_⟩
        intro x hx
        rcases List.mem_map.mp hx with ⟨w, _, hw⟩
        exact Or.inl ⟨_, hw.symm⟩
      · simp at h
    · simp at h
    · simp at h

/-- Witness for C9 at a concrete input. -/
theorem claim_C9_witness :
    parseResp (ascii "PING\r\n") =
      .done (.array [.bulkString (ascii "PING")]) 6 ∧
    ((.array [.bulkString (ascii "PING")] : RespValue) = .null ∨
      ∃ xs, (.array [.bulkString (ascii "PING")] : RespValue) = .array xs ∧
        ∀ x ∈ xs, (∃ s, x = .bulkString s) ∨ x = .null) :=
  ⟨rfl, claim_C9_parser_shape (ascii "PING\r\n") _ 6 rfl⟩

/-- The `usize as i64` cast is the identity below `2 ^ 63` (and every
length reachable in the program is below `2 ^ 63`, the Rust `Vec`
capacity bound). -/
theorem i64cast_small (n : Nat) (h : n < 2 ^ 63) : i64cast n = (n : Int) := by
  have h64 : n < 2 ^ 64 := lt_of_lt_of_le h (by norm_num)
  unfold i64cast
  rw [Nat.mod_eq_of_lt h64, if_pos h]

/-- Lookup across an append: the left map wins when it has the key. -/
theorem hmLookup_append (m l : StoreMap) (k : List Nat) :
    hmLookup (m ++ l) k =
      match hmLookup m k with
      | some v => some v
      | none => hmLookup l k := by
  induction m with
  | nil => simp [hmLookup]
  | cons e rest ih =>
    by_cases h : e.1 = k <;> simp [hmLookup, h, ih]

/-- Lookup after an in-place update at a present key. -/
theorem hmLookup_update_self (m : StoreMap) (k v : List Nat)
    (h : (hmLookup m k).isSome) : hmLookup (hmUpdate m k v) k = some v := by
  induction m with
  | nil => simp [hmLookup] at h
  | cons e rest ih =>
    by_cases he : e.1 = k
    · simp [hmUpdate, hmLookup, he]
    · simp only [hmLookup, he, if_false] at h
      simpa [hmUpdate, hmLookup, he] using ih h

/-- An in-place update at `k` leaves lookups at other keys unchanged. -/
theorem hmLookup_update_other (m : StoreMap) (k v k2 : List Nat)
    (h : k2 ≠ k) : hmLookup (hmUpdate m k v) k2 = hmLookup m k2 := by
  induction m with
  | nil => rfl
  | cons e rest ih =>
    by_cases he : e.1 = k
    · have hne : ¬ e.1 = k2 := by
        rw [he]
        exact fun hh => h hh.symm
      simp only [hmUpdate, List.map_cons, if_pos he, hmLookup, hne, if_false]
      simpa [hmUpdate] using ih
    · simp only [hmUpdate, List.map_cons, if_neg he, hmLookup]
      by_cases he2 : e.1 = k2
      · rw [if_pos he2, if_pos he2]
      · rw [if_neg he2, if_neg he2]
        simpa [hmUpdate] using ih

/-- C7: append with an absent key behaves as appending to the empty
value; afterwards the key holds the old value (empty if absent) followed
by the suffix, other keys are untouched, and the returned length is the
total byte length, old plus suffix. -/
theorem claim_C7_append (m : StoreMap) (key value : List Nat)
    (hfit : ((hmLookup m key).getD []).length + value.length < 2 ^ 63) :
    (storAppend m key value).2 =
      ((((hmLookup m key).getD []).length + value.length : Nat) : Int) ∧
    hmLookup (storAppend m key value).1 key =
      some ((hmLookup m key).getD [] ++ value) ∧
    ∀ k2, k2 ≠ key → hmLookup (storAppend m key value).1 k2 = hmLookup m k2 := by
  cases hl : hmLookup m key with
  | none =>
    rw [hl] at hfit
    simp only [Option.getD_none, List.length_nil, Nat.zero_add] at hfit
    unfold storAppend
    rw [hl]
    dsimp only
    simp only [Option.getD_none, List.length_nil, Nat.zero_add, List.nil_append]
    refine ⟨i64cast_small _ hfit, ?_, ?_⟩
    · rw [hmLookup_append, hl]
      simp [hmLookup]
    · intro k2 h2
      rw [hmLookup_append]
      cases h3 : hmLookup m k2 with
      | some w => rfl
      | none =>
        have hne : ¬ key = k2 := fun hh => h2 hh.symm
        simp [hmLookup, hne]
  | some cur =>
    rw [hl] at hfit
    simp only [Option.getD_some] at hfit
    unfold storAppend
    rw [hl]
    dsimp only
    simp only [Option.getD_some]
    refine ⟨?_, ?_, ?_⟩
    · rw [List.length_append, i64cast_small _ hfit]
    · exact hmLookup_update_self m key (cur ++ value) (by simp [hl])
    · intro k2 h2
      exact hmLookup_update_other m key (cur ++ value) k2 h2

/-- Witness for C7 at a concrete store. -/
theorem claim_C7_witness :
    ((hmLookup [([107], [118])] [107]).getD []).length + [119].length < 2 ^ 63 ∧
    ((storAppend [([107], [118])] [107] [119]).2 =
      ((((hmLookup [([107], [118])] [107]).getD []).length +
        [119].length : Nat) : Int) ∧
    hmLookup (storAppend [([107], [118])] [107] [119]).1 [107] =
      some ((hmLookup [([107], [118])] [107]).getD [] ++ [119]) ∧
    ∀ k2, k2 ≠ [107] →
      hmLookup (storAppend [([107], [118])] [107] [119]).1 k2 =
        hmLookup [([107], [118])] k2) :=
  ⟨by decide, claim_C7_append [([107], [118])] [107] [119] (by decide)⟩

/-- A key is absent exactly when no entry carries it. -/
theorem hmLookup_none_iff (m : StoreMap) (k : List Nat) :
    hmLookup m k = none ↔ ∀ e ∈ m, e.1 ≠ k := by
  induction m with
  | nil => simp [hmLookup]
  | cons e rest ih =>
    by_cases he : e.1 = k <;> simp [hmLookup, he, ih]

/-- Under distinct keys, removing an entry is filtering its key out. -/
theorem hmErase_eq_filter (m : StoreMap) (k : List Nat)
    (hnd : (m.map Prod.fst).Nodup) :
    hmErase m k = m.filter (fun e => decide (¬ e.1 = k)) := by
  induction m with
  | nil => rfl
  | cons e rest ih =>
    simp only [List.map_cons, List.nodup_cons] at hnd
    unfold hmErase
    rw [List.eraseP_cons, List.filter_cons]
    by_cases he : e.1 = k
    · have hout : ∀ x ∈ rest, ¬ x.1 = k := fun x hx hk =>
        hnd.1 (List.mem_map.mpr ⟨x, hx, hk.trans he.symm⟩)
      have hrest : rest.filter (fun e : List Nat × List Nat => !decide (e.1 = k)) = rest := by
        rw [List.filter_eq_self]
        intro x hx
        simpa using hout x hx
      simp [he, hrest]
    · have h1 : hmErase rest k = rest.filter (fun e => decide (¬ e.1 = k)) :=
        ih hnd.2
      unfold hmErase at h1
      simp [he, h1]

/-- Counting the entries whose key is in `k :: ks` splits into the
entries at `k` and the entries at the remaining keys with `k` removed. -/
theorem filter_mem_cons_split (m : StoreMap) (k : List Nat)
    (ks : List (List Nat)) :
    (m.filter (fun e => decide (e.1 ∈ k :: ks))).length =
      (m.filter (fun e => decide (e.1 = k))).length +
      ((m.filter (fun e => decide (¬ e.1 = k))).filter
        (fun e => decide (e.1 ∈ ks))).length := by
  induction m with
  | nil => rfl
  | cons e rest ih =>
    by_cases he : e.1 = k
    · simp [List.filter_cons, he, List.mem_cons] at ih ⊢
      omega
    · by_cases hm : e.1 ∈ ks
      · simp [List.filter_cons, he, hm, List.mem_cons] at ih ⊢
        omega
      · simp [List.filter_cons, he, hm, List.mem_cons] at ih ⊢
        omega

/-- Under distinct keys a present key accounts for exactly one entry. -/
theorem filter_eq_key_single (m : StoreMap) (k v : List Nat)
    (hnd : (m.map Prod.fst).Nodup) (h : hmLookup m k = some v) :
    m.filter (fun e => decide (e.1 = k)) = [(k, v)] := by
  induction m with
  | nil => simp [hmLookup] at h
  | cons e rest ih =>
    simp only [List.map_cons, List.nodup_cons] at hnd
    by_cases he : e.1 = k
    · simp only [hmLookup, he, if_true, Option.some.injEq] at h
      have hrest : rest.filter (fun e => decide (e.1 = k)) = [] := by
        rw [List.filter_eq_nil_iff]
        intro x hx
        simp only [decide_eq_true_eq]
        exact fun hk => hnd.1 (List.mem_map.mpr ⟨x, hx, hk.trans he.symm⟩)
      rw [List.filter_cons]
      simp only [he, decide_true_eq_true, if_true, hrest]
      rw [show e = (k, v) from Prod.ext he h]
    · simp only [hmLookup, he, if_false] at h
      rw [List.filter_cons]
      simp [he, ih hnd.2 h]

/-- The iterative delete loop of the store: it filters the requested keys
out and adds the number of requested entries to the running counter. -/
theorem storDelGo_spec (ks : List (List Nat)) :
    ∀ (m : StoreMap) (acc : Int), (m.map Prod.fst).Nodup →
      storDelGo m ks acc =
        (m.filter (fun e => decide (¬ e.1 ∈ ks)),
         acc + ((m.filter (fun e => decide (e.1 ∈ ks))).length : Int)) := by
  induction ks with
  | nil =>
    intro m acc _
    simp [storDelGo]
  | cons k ks ih =>
    intro m acc hnd
    by_cases hk : (hmLookup m k).isSome
    · obtain ⟨v, hv⟩ := Option.isSome_iff_exists.mp hk
      have hnd2 : ((hmErase m k).map Prod.fst).Nodup := by
        rw [hmErase_eq_filter m k hnd]
        exact hnd.sublist ((List.filter_sublist m).map Prod.fst)
      unfold storDelGo
      rw [if_pos hk, ih _ _ hnd2, hmErase_eq_filter m k hnd]
      simp only [Prod.mk.injEq]
      constructor
      · rw [List.filter_filter]
        apply List.filter_congr
        intro e _
        by_cases h1 : e.1 = k <;> by_cases h2 : e.1 ∈ ks <;>
          simp [h1, h2, List.mem_cons]
      · rw [filter_mem_cons_split m k ks,
          filter_eq_key_single m k v hnd hv]
        simp only [List.length_cons, List.length_nil]
        push_cast
        omega
    · have hnone : hmLookup m k = none := Option.not_isSome_iff_eq_none.mp hk
      have hout : ∀ e ∈ m, e.1 ≠ k := (hmLookup_none_iff m k).mp hnone
      unfold storDelGo
      rw [if_neg hk, ih _ _ hnd]
      simp only [Prod.mk.injEq]
      constructor
      · apply List.filter_congr
        intro e he
        simp [List.mem_cons, hout e he]
      · have hsame : m.filter (fun e => decide (e.1 ∈ k :: ks)) =
            m.filter (fun e => decide (e.1 ∈ ks)) := by
          apply List.filter_congr
          intro e he
          simp [List.mem_cons, hout e he]
        rw [hsame]

/-- C6: delete returns exactly the number of requested keys present at
the call, afterwards none of the requested keys is present, and every
entry whose key was not requested is unchanged (the final store is the
original minus the requested entries, in order). -/
theorem claim_C6_del (m : StoreMap) (keys : List (List Nat))
    (hnd : (m.map Prod.fst).Nodup) :
    (storDel m keys).2 =
      ((m.filter (fun e => decide (e.1 ∈ keys))).length : Int) ∧
    (storDel m keys).1 = m.filter (fun e => decide (¬ e.1 ∈ keys)) ∧
    ∀ k, k ∈ keys → hmLookup (storDel m keys).1 k = none := by
  have h := storDelGo_spec keys m 0 hnd
  unfold storDel
  rw [h]
  refine ⟨by simp, rfl, ?_⟩
  intro k hk
  rw [hmLookup_none_iff]
  intro e he
  have := List.mem_filter.mp he
  simp only [decide_eq_true_eq] at this
  intro hek
  exact this.2 (hek ▸ hk)

/-- Witness for C6 at a concrete store and key list (one present key,
one absent). -/
theorem claim_C6_witness :
    (([([1], [2]), ([3], [4])] : StoreMap).map Prod.fst).Nodup ∧
    ((storDel [([1], [2]), ([3], [4])] [[1], [5]]).2 =
      ((([([1], [2]), ([3], [4])] : StoreMap).filter
        (fun e => decide (e.1 ∈ [[1], [5]]))).length : Int) ∧
    (storDel [([1], [2]), ([3], [4])] [[1], [5]]).1 =
      ([([1], [2]), ([3], [4])] : StoreMap).filter
        (fun e => decide (¬ e.1 ∈ [[1], [5]])) ∧
    ∀ k, k ∈ [[1], [5]] →
      hmLookup (storDel [([1], [2]), ([3], [4])] [[1], [5]]).1 k = none) :=
  ⟨by decide, claim_C6_del [([1], [2]), ([3], [4])] [[1], [5]] (by decide)⟩

/-- The digits emitted by `natDecAux` evaluate back to the number under
the decimal fold used by `parseI64`. -/
theorem natDecAux_foldl (fuel : Nat) :
    ∀ n a, n ≤ fuel →
      (natDecAux fuel n).foldl (fun acc d => acc * 10 + (d - 48)) a =
        a * 10 ^ (natDecAux fuel n).length + n := by
  induction fuel with
  | zero =>
    intro n a h
    have hn : n = 0 := Nat.le_zero.mp h
    subst hn
    simp [natDecAux]
  | succ fuel ih =>
    intro n a h
    by_cases h10 : n < 10
    · simp [natDecAux, h10]
    · have hrec : n / 10 ≤ fuel := by omega
      simp only [natDecAux, h10, if_false]
      rw [List.foldl_append, ih (n / 10) a hrec]
      simp only [List.foldl_cons, List.foldl_nil, List.length_append,
        List.length_singleton]
      have hmod : 48 + n % 10 - 48 = n % 10 := by omega
      rw [hmod, pow_succ]
      set L := (natDecAux fuel (n / 10)).length with hL
      conv_rhs => rw [show n = 10 * (n / 10) + n % 10 from (Nat.div_add_mod n 10).symm]
      ring

/-- `natDec` is never empty. -/
theorem natDec_ne_nil (n : Nat) : natDec n ≠ [] := by
  unfold natDec
  cases hf : n with
  | zero => simp [natDecAux]
  | succ m =>
    simp only [natDecAux]
    split <;> simp

/-- `parseI64` on a pure digit string below the overflow bound returns the
decimal value. -/
theorem parseI64_digits (l : List Nat) (hne : l ≠ [])
    (hd : ∀ c ∈ l, 48 ≤ c ∧ c ≤ 57)
    (hv : l.foldl (fun acc d => acc * 10 + (d - 48)) 0 < 2 ^ 63) :
    parseI64 l =
      some ((l.foldl (fun acc d => acc * 10 + (d - 48)) 0 : Nat) : Int) := by
  cases l with
  | nil => exact absurd rfl hne
  | cons c rest =>
    have hc := hd c (by simp)
    have hc43 : decide (c = 43) = false := by
      simp only [decide_eq_false_iff_not]
      omega
    have hc45 : decide (c = 45) = false := by
      simp only [decide_eq_false_iff_not]
      omega
    have hall : (c :: rest).all (fun d => decide (48 ≤ d) && decide (d ≤ 57)) = true := by
      rw [List.all_eq_true]
      intro d hdm
      have := hd d hdm
      simp only [Bool.and_eq_true, decide_eq_true_eq]
      omega
    have hrange :
        -(2 ^ 63 : Int) ≤
            (((c :: rest).foldl (fun acc d => acc * 10 + (d - 48)) 0 : Nat) : Int) ∧
          (((c :: rest).foldl (fun acc d => acc * 10 + (d - 48)) 0 : Nat) : Int) <
            2 ^ 63 := by
      constructor
      · calc -(2 ^ 63 : Int) ≤ 0 := by norm_num
          _ ≤ _ := Int.natCast_nonneg _
      · exact_mod_cast hv
    unfold parseI64
    simp only [hc43, hc45, Bool.or_false, Bool.false_eq_true, if_false,
      if_neg (List.cons_ne_nil c rest)]
    rw [if_pos hall, if_pos hrange]

/-- `parseI64` recovers a natural number from its decimal digits. -/
theorem parseI64_natDec (n : Nat) (h : n < 2 ^ 63) :
    parseI64 (natDec n) = some (n : Int) := by
  have hf := natDecAux_foldl n n 0 (Nat.le_refl n)
  rw [Nat.zero_mul, Nat.zero_add] at hf
  have := parseI64_digits (natDec n) (natDec_ne_nil n) (natDec_digits n)
    (by rw [show (natDec n) = natDecAux n n from rfl, hf]; exact h)
  rw [this]
  rw [show (natDec n) = natDecAux n n from rfl, hf]

/-- The first CRLF of `l ++ \r\n ++ r` is right after `l` when `l` is
CR-free. -/
theorem findCRLF_clean (l : List Nat) (r : List Nat)
    (h : ∀ c ∈ l, c ≠ 13) :
    findCRLF (l ++ 13 :: 10 :: r) = some l.length := by
  induction l with
  | nil => simp [findCRLF]
  | cons c rest ih =>
    have hc : c ≠ 13 := h c (by simp)
    rw [List.cons_append]
    unfold findCRLF
    rw [if_neg (by simp [hc]), ih (fun x hx => h x (by simp [hx]))]
    rfl

/-- `parseLine` on a CR-free line followed by CRLF returns the line and
consumes it together with the CRLF. -/
theorem parseLine_clean (l r : List Nat) (h : ∀ c ∈ l, c ≠ 13) :
    parseLine (l ++ 13 :: 10 :: r) = .done l (l.length + 2) := by
  unfold parseLine
  rw [findCRLF_clean l r h]
  dsimp only
  rw [List.take_append_of_le_length (Nat.le_refl _), List.take_length]

/-- The UTF-8 decoding loop is the identity on ASCII byte lists, for any
sufficient fuel. -/
theorem utf8DecodeGo_ascii (l : List Nat) :
    ∀ fuel, l.length ≤ fuel → (∀ c ∈ l, c < 128) →
      utf8DecodeGo fuel l = some l := by
  induction l with
  | nil =>
    intro fuel _ _
    cases fuel <;> rfl
  | cons c rest ih =>
    intro fuel hf h
    cases fuel with
    | zero => simp at hf
    | succ f =>
      have hc : c < 128 := h c (by simp)
      show utf8DecodeGo (f + 1) (c :: rest) = some (c :: rest)
      simp only [utf8DecodeGo]
      rw [show utf8Step c rest = some (c, rest) from by
        unfold utf8Step
        rw [if_pos hc]]
      dsimp only
      rw [ih f (by simp at hf; omega) (fun x hx => h x (by simp [hx]))]

/-- Strict UTF-8 decoding is the identity on ASCII byte lists. -/
theorem utf8Decode_ascii (l : List Nat) (h : ∀ c ∈ l, c < 128) :
    utf8Decode l = some l :=
  utf8DecodeGo_ascii l l.length (Nat.le_refl _) h

/-- Dropping while a predicate fails on every element drops nothing. -/
theorem dropWhile_of_false (p : Nat → Bool) (l : List Nat)
    (h : ∀ c ∈ l, p c = false) : l.dropWhile p = l := by
  cases l with
  | nil => rfl
  | cons c rest => simp [List.dropWhile, h c (by simp)]

/-- Trimming a string with no whitespace characters is the identity. -/
theorem strTrim_of_no_ws (l : List Nat)
    (h : ∀ c ∈ l, isRustWhitespace c = false) : strTrim l = l := by
  unfold strTrim
  rw [dropWhile_of_false _ _ h,
    dropWhile_of_false _ _ (fun c hc => h c (List.mem_reverse.mp hc)),
    List.reverse_reverse]

/-- ASCII digits are not whitespace. -/
theorem digit_not_ws (c : Nat) (h1 : 48 ≤ c) (h2 : c ≤ 57) :
    isRustWhitespace c = false := by
  simp only [isRustWhitespace, Bool.or_eq_false_iff, Bool.and_eq_false_iff,
    decide_eq_false_iff_not]
  omega

/-- `parseInteger` on an encoded decimal length line. -/
theorem parseInteger_clean (n : Nat) (r : List Nat) (h : n < 2 ^ 63) :
    parseInteger (natDec n ++ 13 :: 10 :: r) =
      .done (n : Int) ((natDec n).length + 2) := by
  have hdig := natDec_digits n
  have h13 : ∀ c ∈ natDec n, c ≠ 13 := by
    intro c hc
    have := hdig c hc
    omega
  have hascii : ∀ c ∈ natDec n, c < 128 := by
    intro c hc
    have := hdig c hc
    omega
  have hws : ∀ c ∈ natDec n, isRustWhitespace c = false := by
    intro c hc
    exact digit_not_ws c (hdig c hc).1 (hdig c hc).2
  unfold parseInteger
  rw [parseLine_clean _ _ h13]
  dsimp only
  rw [utf8Decode_ascii _ hascii]
  dsimp only
  rw [strTrim_of_no_ws _ hws, parseI64_natDec n h]

/-- `parseBulk` on an encoded bulk-string body. -/
theorem parseBulk_clean (b r : List Nat) (h : b.length < 2 ^ 63) :
    parseBulk (natDec b.length ++ 13 :: 10 :: (b ++ 13 :: 10 :: r)) =
      .done (.bulkString b) ((natDec b.length).length + 2 + b.length + 2) := by
  unfold parseBulk
  rw [parseInteger_clean b.length _ h]
  dsimp only
  rw [if_neg (by omega)]
  have hdrop : (natDec b.length ++ 13 :: 10 :: (b ++ 13 :: 10 :: r)).drop
      ((natDec b.length).length + 2) = b ++ 13 :: 10 :: r := by
    rw [show natDec b.length ++ 13 :: 10 :: (b ++ 13 :: 10 :: r) =
      (natDec b.length ++ [13, 10]) ++ (b ++ 13 :: 10 :: r) by simp,
      show (natDec b.length).length + 2 = (natDec b.length ++ [13, 10]).length
        by simp]
    exact List.drop_left _ _
  simp only [Int.toNat_natCast, hdrop]
  rw [if_neg (by rw [List.length_append]; omega)]
  rw [show (b ++ 13 :: 10 :: r).drop b.length = 13 :: 10 :: r from
    List.drop_left _ _]
  rw [show (b ++ 13 :: 10 :: r).take b.length = b from List.take_left _ _]

/-- One step of the array-element loop on a `$`-prefixed tail. -/
theorem parseArrayElems_succ (n : Nat) (r : List Nat) :
    parseArrayElems (n + 1) (36 :: r) =
      (match parseBulk r with
      | .done v c =>
        match parseArrayElems n (r.drop c) with
        | .done vs c2 => .done (v :: vs) (1 + c + c2)
        | .incomplete => .incomplete
        | .error => .error
      | .incomplete => .incomplete
      | .error => .error) := rfl

/-- `parseArrayElems` decodes a run of encoded `$`-bulk strings back to
the same values, consuming exactly their encoding. -/
theorem parseArrayElems_clean (xs : List (List Nat)) :
    ∀ r, (∀ b ∈ xs, b.length < 2 ^ 63) →
      parseArrayElems xs.length
          (encodeList (xs.map RespValue.bulkString) ++ r) =
        .done (xs.map RespValue.bulkString)
          (encodeList (xs.map RespValue.bulkString)).length := by
  induction xs with
  | nil =>
    intro r _
    simp [parseArrayElems, encodeList]
  | cons b xs ih =>
    intro r hb
    have hblen : b.length < 2 ^ 63 := hb b (by simp)
    have hinput : encodeList ((b :: xs).map RespValue.bulkString) ++ r =
        36 :: (natDec b.length ++ 13 :: 10 ::
          (b ++ 13 :: 10 ::
            (encodeList (xs.map RespValue.bulkString) ++ r))) := by
      simp only [List.map_cons, encodeList, encode]
      simp [List.append_assoc]
    rw [hinput, List.length_cons, parseArrayElems_succ, parseBulk_clean _ _ hblen]
    have hdrop2 : (natDec b.length ++ 13 :: 10 ::
        (b ++ 13 :: 10 :: (encodeList (xs.map RespValue.bulkString) ++ r))).drop
          ((natDec b.length).length + 2 + b.length + 2) =
        encodeList (xs.map RespValue.bulkString) ++ r := by
      rw [show natDec b.length ++ 13 :: 10 ::
          (b ++ 13 :: 10 :: (encodeList (xs.map RespValue.bulkString) ++ r)) =
        (natDec b.length ++ [13, 10] ++ b ++ [13, 10]) ++
          (encodeList (xs.map RespValue.bulkString) ++ r) by simp,
        show (natDec b.length).length + 2 + b.length + 2 =
          (natDec b.length ++ [13, 10] ++ b ++ [13, 10]).length by
            simp [List.length_append]; omega]
      exact List.drop_left _ _
    simp only [hdrop2]
    rw [ih r (fun x hx => hb x (by simp [hx]))]
    simp only [List.map_cons, encodeList]
    congr 1
    simp [encode, List.length_append]
    omega

/-- Reduction of the top-level parser on a `*`-led buffer. -/
theorem parseResp_star (r : List Nat) :
    parseResp (42 :: r) =
      (match parseInteger r with
      | .done len n =>
        if len < 0 then .done .null (1 + n)
        else
          match parseArrayElems len.toNat (r.drop n) with
          | .done vs c => .done (.array vs) (1 + n + c)
          | .incomplete => .incomplete
          | .error => .error
      | .incomplete => .incomplete
      | .error => .error) := rfl

/-- C2: decoding the exact bytes produced by encoding any request-shaped
wire value (an array of bulk strings, possibly empty) yields that same
value back and consumes exactly those bytes.  The two bounds are the
`i64` range limits of the length lines, satisfied by every value a Rust
`Vec` can hold. -/
theorem claim_C2_roundtrip (xs : List (List Nat))
    (hlen : xs.length < 2 ^ 63) (hb : ∀ b ∈ xs, b.length < 2 ^ 63) :
    parseResp (encode (.array (xs.map RespValue.bulkString))) =
      .done (.array (xs.map RespValue.bulkString))
        (encode (.array (xs.map RespValue.bulkString))).length := by
  have henc : encode (.array (xs.map RespValue.bulkString)) =
      42 :: (natDec xs.length ++ 13 :: 10 ::
        encodeList (xs.map RespValue.bulkString)) := by
    show 42 :: natDec (xs.map RespValue.bulkString).length ++ [13, 10] ++
        encodeList (xs.map RespValue.bulkString) = _
    simp [List.length_map, List.append_assoc]
  rw [henc, parseResp_star, parseInteger_clean xs.length _ hlen]
  dsimp only
  rw [if_neg (by omega)]
  have hdrop : (natDec xs.length ++ 13 :: 10 ::
      encodeList (xs.map RespValue.bulkString)).drop
        ((natDec xs.length).length + 2) =
      encodeList (xs.map RespValue.bulkString) := by
    rw [show natDec xs.length ++ 13 :: 10 ::
        encodeList (xs.map RespValue.bulkString) =
      (natDec xs.length ++ [13, 10]) ++
        encodeList (xs.map RespValue.bulkString) by simp,
      show (natDec xs.length).length + 2 =
        (natDec xs.length ++ [13, 10]).length by simp]
    exact List.drop_left _ _
  simp only [Int.toNat_natCast, hdrop]
  have harr := parseArrayElems_clean xs [] hb
  rw [List.append_nil] at harr
  rw [harr]
  simp [List.length_append]
  omega

/-- Witness for C2 at the concrete request value `GET k`. -/
theorem claim_C2_witness :
    ([ascii "GET", ascii "k"] : List (List Nat)).length < 2 ^ 63 ∧
    (∀ b ∈ [ascii "GET", ascii "k"], b.length < 2 ^ 63) ∧
    parseResp
        (encode (.array ([ascii "GET", ascii "k"].map RespValue.bulkString))) =
      .done (.array ([ascii "GET", ascii "k"].map RespValue.bulkString))
        (encode
          (.array ([ascii "GET", ascii "k"].map RespValue.bulkString))).length :=
  ⟨by decide, by decide,
    claim_C2_roundtrip [ascii "GET", ascii "k"] (by decide) (by decide)⟩

/-! ### Stability of the parser under appending more bytes (for C3) -/

/-- A found CRLF stays at the same index when more bytes arrive. -/
theorem findCRLF_some_append (b : List Nat) :
    ∀ e i, findCRLF b = some i → findCRLF (b ++ e) = some i := by
  induction b with
  | nil =>
    intro e i h
    simp [findCRLF] at h
  | cons c rest ih =>
    intro e i h
    rw [List.cons_append]
    unfold findCRLF at h ⊢
    by_cases hc : c = 13 ∧ rest.head? = some 10
    · rw [if_pos hc] at h
      have hd : (rest ++ e).head? = some 10 := by
        cases rest with
        | nil => simp at hc
        | cons a t => simpa using hc.2
      rw [if_pos ⟨hc.1, hd⟩]
      exact h
    · rw [if_neg hc] at h
      obtain ⟨j, hj, hij⟩ := Option.map_eq_some'.mp h
      have hne : rest ≠ [] := by
        intro hnil
        rw [hnil] at hj
        simp [findCRLF] at hj
      have hd : (rest ++ e).head? = rest.head? := by
        cases rest with
        | nil => exact absurd rfl hne
        | cons a t => rfl
      rw [hd, if_neg hc, ih e j hj]
      simp [hij]

/-- A found CRLF lies within the buffer. -/
theorem findCRLF_some_bound (b : List Nat) :
    ∀ i, findCRLF b = some i → i + 2 ≤ b.length := by
  induction b with
  | nil =>
    intro i h
    simp [findCRLF] at h
  | cons c rest ih =>
    intro i h
    unfold findCRLF at h
    by_cases hc : c = 13 ∧ rest.head? = some 10
    · rw [if_pos hc] at h
      have h0 : i = 0 := by simpa using h.symm
      have hne : rest ≠ [] := by
        intro hnil
        rw [hnil] at hc
        simp at hc
      have : 1 ≤ rest.length := List.length_pos.mpr hne
      simp [h0]
      omega
    · rw [if_neg hc] at h
      obtain ⟨j, hj, hij⟩ := Option.map_eq_some'.mp h
      have := ih j hj
      simp only [List.length_cons]
      omega

/-- `parseLine` never reports a stream error. -/
theorem parseLine_ne_error (b : List Nat) : parseLine b ≠ .error := by
  unfold parseLine
  cases hf : findCRLF b <;> simp

/-- A completed `parseLine` consumed between 2 bytes and the whole
buffer, and its result survives appending more bytes unchanged. -/
theorem parseLine_done (b : List Nat) (l : List Nat) (n : Nat)
    (h : parseLine b = .done l n) :
    2 ≤ n ∧ n ≤ b.length ∧ ∀ e, parseLine (b ++ e) = .done l n := by
  unfold parseLine at h
  cases hf : findCRLF b with
  | none => rw [hf] at h; simp at h
  | some i =>
    rw [hf] at h
    dsimp only at h
    obtain ⟨hl, hn⟩ : b.take i = l ∧ i + 2 = n := by
      constructor
      · exact (PRes.done.injEq _ _ _ _).mp h |>.1
      · exact (PRes.done.injEq _ _ _ _).mp h |>.2
    have hb := findCRLF_some_bound b i hf
    refine ⟨by omega, by omega, ?_⟩
    intro e
    unfold parseLine
    rw [findCRLF_some_append b e i hf]
    dsimp only
    rw [List.take_append_of_le_length (by omega), hl, hn]

/-- A completed `parseInteger` consumed at least one byte, at most the
buffer, and its result survives appending more bytes. -/
theorem parseInteger_done (b : List Nat) (v : Int) (n : Nat)
    (h : parseInteger b = .done v n) :
    1 ≤ n ∧ n ≤ b.length ∧ ∀ e, parseInteger (b ++ e) = .done v n := by
  unfold parseInteger at h
  cases hpl : parseLine b with
  | done l m =>
    rw [hpl] at h
    dsimp only at h
    obtain ⟨h2, hle, hstab⟩ := parseLine_done b l m hpl
    cases hu : utf8Decode l with
    | some chars =>
      rw [hu] at h
      dsimp only at h
      cases hp : parseI64 (strTrim chars) with
      | some w =>
        rw [hp] at h
        obtain ⟨hv, hn⟩ := (PRes.done.injEq _ _ _ _).mp h
        refine ⟨by omega, by omega, ?_⟩
        intro e
        unfold parseInteger
        rw [hstab e]
        dsimp only
        rw [hu]
        dsimp only
        rw [hp, hv, hn]
      | none => rw [hp] at h; simp at h
    | none => rw [hu] at h; simp at h
  | incomplete => rw [hpl] at h; simp at h
  | error => exact absurd hpl (parseLine_ne_error b)

/-- A `parseInteger` stream error survives appending more bytes. -/
theorem parseInteger_error (b : List Nat) (h : parseInteger b = .error) :
    ∀ e, parseInteger (b ++ e) = .error := by
  unfold parseInteger at h
  cases hpl : parseLine b with
  | done l m =>
    rw [hpl] at h
    dsimp only at h
    obtain ⟨-, -, hstab⟩ := parseLine_done b l m hpl
    intro e
    unfold parseInteger
    rw [hstab e]
    dsimp only
    cases hu : utf8Decode l with
    | some chars =>
      rw [hu] at h
      dsimp only at h ⊢
      cases hp : parseI64 (strTrim chars) with
      | some w => simp [hp] at h
      | none => rfl
    | none => rfl
  | incomplete => rw [hpl] at h; simp at h
  | error => exact absurd hpl (parseLine_ne_error b)

/-- A completed `parseBulk` consumed at least one byte, at most the
buffer, and its result survives appending more bytes. -/
theorem parseBulk_done (b : List Nat) (v : RespValue) (n : Nat)
    (h : parseBulk b = .done v n) :
    1 ≤ n ∧ n ≤ b.length ∧ ∀ e, parseBulk (b ++ e) = .done v n := by
  unfold parseBulk at h
  cases hi : parseInteger b with
  | done len m =>
    rw [hi] at h
    dsimp only at h
    obtain ⟨h1, hle, hstab⟩ := parseInteger_done b len m hi
    by_cases hneg : len < 0
    · rw [if_pos hneg] at h
      obtain ⟨hv, hn⟩ := (PRes.done.injEq _ _ _ _).mp h
      refine ⟨by omega, by omega, ?_⟩
      intro e
      unfold parseBulk
      rw [hstab e]
      dsimp only
      rw [if_pos hneg, hv, hn]
    · rw [if_neg hneg] at h
      by_cases hl : (b.drop m).length < len.toNat
      · rw [if_pos hl] at h
        simp at h
      · rw [if_neg hl] at h
        split at h
        · rename_i tail heq
          obtain ⟨hv, hn⟩ := (PRes.done.injEq _ _ _ _).mp h
          have hlen2 : (b.drop m).length = b.length - m :=
            List.length_drop _ _
          have hlen3 : b.length - (m + len.toNat) = tail.length + 1 + 1 := by
            have := congrArg List.length heq
            simpa [List.length_drop] using this
          refine ⟨by omega, by omega, ?_⟩
          intro e
          unfold parseBulk
          rw [hstab e]
          dsimp only
          rw [if_neg hneg]
          have hdropm : (b ++ e).drop m = b.drop m ++ e :=
            List.drop_append_of_le_length hle
          rw [hdropm]
          rw [if_neg (by rw [List.length_append]; omega)]
          rw [show (b.drop m ++ e).drop len.toNat = 13 :: 10 :: (tail ++ e) by
            rw [List.drop_append_of_le_length (by omega), heq]
            rfl]
          dsimp only
          rw [show (b.drop m ++ e).take len.toNat = (b.drop m).take len.toNat
            from List.take_append_of_le_length (by omega)]
          rw [hv, hn]
        · simp at h
        · simp at h
        · simp at h
  | incomplete => rw [hi] at h; simp at h
  | error => rw [hi] at h; simp at h

/-- A `parseBulk` error survives appending more bytes. -/
theorem parseBulk_error (b : List Nat) (h : parseBulk b = .error) :
    ∀ e, parseBulk (b ++ e) = .error := by
  unfold parseBulk at h
  cases hi : parseInteger b with
  | done len m =>
    rw [hi] at h
    dsimp only at h
    obtain ⟨h1, hle, hstab⟩ := parseInteger_done b len m hi
    by_cases hneg : len < 0
    · rw [if_pos hneg] at h
      simp at h
    · rw [if_neg hneg] at h
      by_cases hl : (b.drop m).length < len.toNat
      · rw [if_pos hl] at h
        simp at h
      · rw [if_neg hl] at h
        split at h
        · simp at h
        · simp at h
        · simp at h
        · rename_i hne1 hne2 hne3
          intro e
          unfold parseBulk
          rw [hstab e]
          dsimp only
          rw [if_neg hneg]
          have hdropm : (b ++ e).drop m = b.drop m ++ e :=
            List.drop_append_of_le_length hle
          rw [hdropm]
          rw [if_neg (by rw [List.length_append]; omega)]
          rw [List.drop_append_of_le_length (by omega)]
          obtain ⟨d, t, hx⟩ : ∃ d t, (b.drop m).drop len.toNat = d :: t := by
            cases hxx : (b.drop m).drop len.toNat with
            | nil => exact absurd hxx (by intro hh; exact hne3 hh)
            | cons d t => exact ⟨d, t, rfl⟩
          rw [hx, List.cons_append]
          split
          · rename_i tail2 heq2
            exfalso
            injection heq2 with hd ht
            cases t with
            | nil => exact hne2 (by rw [hx, hd])
            | cons y t2 =>
              injection ht with hy _
              exact hne1 t2 (by rw [hx, hd, hy])
          · rename_i heq2
            exfalso
            injection heq2 with hd ht
            have ht2 : t = [] := (List.append_eq_nil.mp ht).1
            exact hne2 (by rw [hx, hd, ht2])
          · rename_i heq2
            exact absurd heq2 (by simp)
          · rfl
  | incomplete => rw [hi] at h; simp at h
  | error =>
    rw [hi] at h
    intro e
    unfold parseBulk
    rw [parseInteger_error b hi e]

/-- A completed element run consumed at most the buffer and survives
appending more bytes. -/
theorem parseArrayElems_done (n : Nat) :
    ∀ b vs c, parseArrayElems n b = .done vs c →
      c ≤ b.length ∧ ∀ e, parseArrayElems n (b ++ e) = .done vs c := by
  induction n with
  | zero =>
    intro b vs c h
    simp [parseArrayElems] at h
    refine ⟨by omega, fun e => ?_⟩
    simp [parseArrayElems, h.1, ← h.2]
  | succ n ih =>
    intro b vs c h
    unfold parseArrayElems at h
    split at h
    · simp at h
    · rename_i rest
      split at h
      · rename_i v1 c1 hb
        split at h
        · rename_i vs2 c2 ha
          obtain ⟨hvs, hc⟩ := (PRes.done.injEq _ _ _ _).mp h
          obtain ⟨hb1, hble, hbstab⟩ := parseBulk_done rest v1 c1 hb
          obtain ⟨hale, hastab⟩ := ih (rest.drop c1) vs2 c2 ha
          have hlen2 : (rest.drop c1).length = rest.length - c1 :=
            List.length_drop _ _
          refine ⟨by simp only [List.length_cons]; omega, fun e => ?_⟩
          rw [List.cons_append, parseArrayElems_succ, hbstab e]
          dsimp only
          rw [show (rest ++ e).drop c1 = rest.drop c1 ++ e from
            List.drop_append_of_le_length hble, hastab e]
          dsimp only
          rw [hvs, hc]
        · simp at h
        · simp at h
      · simp at h
      · simp at h
    · simp at h

/-- An element-run error survives appending more bytes. -/
theorem parseArrayElems_error (n : Nat) :
    ∀ b, parseArrayElems n b = .error →
      ∀ e, parseArrayElems n (b ++ e) = .error := by
  induction n with
  | zero =>
    intro b h
    simp [parseArrayElems] at h
  | succ n ih =>
    intro b h e
    unfold parseArrayElems at h
    split at h
    · simp at h
    · rename_i rest
      split at h
      · rename_i v1 c1 hb
        split at h
        · simp at h
        · simp at h
        · rename_i ha
          obtain ⟨hb1, hble, hbstab⟩ := parseBulk_done rest v1 c1 hb
          rw [List.cons_append, parseArrayElems_succ, hbstab e]
          dsimp only
          rw [show (rest ++ e).drop c1 = rest.drop c1 ++ e from
            List.drop_append_of_le_length hble, ih (rest.drop c1) ha e]
      · simp at h
      · rename_i hb
        rw [List.cons_append, parseArrayElems_succ, parseBulk_error rest hb e]
    · rename_i d t hne
      rw [List.cons_append]
      unfold parseArrayElems
      split
      · rename_i heq
        simp at heq
      · rename_i rest2 heq
        exfalso
        injection heq with hd ht
        exact hne (by rw [hd])
      · rfl

/-- A completed top-level parse consumed between one byte and the whole
buffer, and its result survives appending more bytes. -/
theorem parseResp_done (b : List Nat) (v : RespValue) (n : Nat)
    (h : parseResp b = .done v n) :
    1 ≤ n ∧ n ≤ b.length ∧ ∀ e, parseResp (b ++ e) = .done v n := by
  unfold parseResp at h
  split at h
  · simp at h
  · rename_i rest
    split at h
    · rename_i len m hi
      obtain ⟨h1, hle, hstab⟩ := parseInteger_done rest len m hi
      split at h
      · rename_i hneg
        obtain ⟨hv, hn⟩ := (PRes.done.injEq _ _ _ _).mp h
        refine ⟨by omega, by simp only [List.length_cons]; omega, fun e => ?_⟩
        rw [List.cons_append, parseResp_star, hstab e]
        dsimp only
        rw [if_pos hneg, hv, hn]
      · rename_i hneg
        split at h
        · rename_i vs c ha
          obtain ⟨hv, hn⟩ := (PRes.done.injEq _ _ _ _).mp h
          obtain ⟨hale, hastab⟩ := parseArrayElems_done len.toNat _ vs c ha
          have hlen2 : (rest.drop m).length = rest.length - m :=
            List.length_drop _ _
          refine ⟨by omega, by simp only [List.length_cons]; omega, fun e => ?_⟩
          rw [List.cons_append, parseResp_star, hstab e]
          dsimp only
          rw [if_neg hneg]
          rw [show (rest ++ e).drop m = rest.drop m ++ e from
            List.drop_append_of_le_length hle, hastab e]
          dsimp only
          rw [hv, hn]
        · simp at h
        · simp at h
    · simp at h
    · simp at h
  · rename_i d t hne
    split at h
    · rename_i l m hpl
      obtain ⟨h2, hle, hstab⟩ := parseLine_done _ l m hpl
      split at h
      · rename_i chars hu
        obtain ⟨hv, hn⟩ := (PRes.done.injEq _ _ _ _).mp h
        refine ⟨by omega, by omega, fun e => ?_⟩
        rw [List.cons_append]
        unfold parseResp
        split
        · rename_i heq
          simp at heq
        · rename_i rest2 heq
          exfalso
          injection heq with hd ht
          exact hne (by rw [hd])
        · rename_i d2 t2
          have hstab2 := hstab e
          rw [List.cons_append] at hstab2
          rw [hstab2]
          dsimp only
          rw [hu]
          dsimp only
          rw [hv, hn]
      · simp at h
    · simp at h
    · simp at h

/-- A top-level parse error survives appending more bytes. -/
theorem parseResp_error (b : List Nat) (h : parseResp b = .error) :
    ∀ e, parseResp (b ++ e) = .error := by
  unfold parseResp at h
  split at h
  · simp at h
  · rename_i rest
    intro e
    split at h
    · rename_i len m hi
      obtain ⟨h1, hle, hstab⟩ := parseInteger_done rest len m hi
      split at h
      · simp at h
      · rename_i hneg
        split at h
        · simp at h
        · simp at h
        · rename_i ha
          rw [List.cons_append, parseResp_star, hstab e]
          dsimp only
          rw [if_neg hneg]
          rw [show (rest ++ e).drop m = rest.drop m ++ e from
            List.drop_append_of_le_length hle,
            parseArrayElems_error len.toNat _ ha e]
    · simp at h
    · rename_i hi
      rw [List.cons_append, parseResp_star, parseInteger_error rest hi e]
  · rename_i d t hne
    intro e
    split at h
    · rename_i l m hpl
      obtain ⟨h2, hle, hstab⟩ := parseLine_done _ l m hpl
      split at h
      · simp at h
      · rename_i hu
        rw [List.cons_append]
        unfold parseResp
        split
        · rename_i heq
          simp at heq
        · rename_i rest2 heq
          exfalso
          injection heq with hd ht
          exact hne (by rw [hd])
        · have hstab2 := hstab e
          rw [List.cons_append] at hstab2
          rw [hstab2]
          dsimp only
          rw [hu]
    · simp at h
    · exact absurd (by assumption) (parseLine_ne_error (d :: t))

/-- The drain loop does not depend on the fuel, once the fuel exceeds the
buffer length. -/
theorem drainGo_fuel (f1 : Nat) :
    ∀ f2 b, b.length < f1 → b.length < f2 → drainGo f1 b = drainGo f2 b := by
  induction f1 with
  | zero =>
    intro f2 b h1 _
    omega
  | succ f1 ih =>
    intro f2 b h1 h2
    cases f2 with
    | zero => omega
    | succ f2 =>
      cases b with
      | nil => rfl
      | cons c rest =>
        show drainGo (f1 + 1) (c :: rest) = drainGo (f2 + 1) (c :: rest)
        simp only [drainGo]
        cases hp : parseResp (c :: rest) with
        | done v n =>
          obtain ⟨hpos, hple, -⟩ := parseResp_done _ _ _ hp
          have hlen : ((c :: rest).drop n).length < f1 := by
            rw [List.length_drop]
            simp only [List.length_cons] at h1 ⊢
            omega
          have hlen2 : ((c :: rest).drop n).length < f2 := by
            rw [List.length_drop]
            simp only [List.length_cons] at h2 ⊢
            omega
          dsimp only
          rw [ih f2 _ hlen hlen2]
        | incomplete => rfl
        | error => rfl

/-- One unfolding of `drain` on a nonempty buffer. -/
theorem drain_cons (c : Nat) (rest : List Nat) :
    drain (c :: rest) =
      (match parseResp (c :: rest) with
      | .done v n =>
        (v :: (drain ((c :: rest).drop n)).1,
         n + (drain ((c :: rest).drop n)).2.1,
         (drain ((c :: rest).drop n)).2.2)
      | .incomplete => ([], 0, .needMore)
      | .error => ([], 0, .failed)) := by
  show drainGo ((c :: rest).length + 1) (c :: rest) = _
  rw [show (c :: rest).length + 1 = rest.length + 1 + 1 from by simp]
  simp only [drainGo]
  cases hp : parseResp (c :: rest) with
  | done v n =>
    dsimp only
    obtain ⟨hpos, hple, -⟩ := parseResp_done _ _ _ hp
    rw [drainGo_fuel (rest.length + 1) (((c :: rest).drop n).length + 1) _
      (by rw [List.length_drop]; simp only [List.length_cons]; omega)
      (by omega)]
    rfl
  | incomplete => rfl
  | error => rfl

/-- Draining `b ++ e` is draining `b` and then continuing from the
unconsumed bytes of `b` followed by `e`; a decode error in `b` is final. -/
theorem drain_append (L : Nat) :
    ∀ (b : List Nat), b.length ≤ L → ∀ e,
      ((drain b).2.2 = .failed →
        drain (b ++ e) = ((drain b).1, (drain b).2.1, .failed)) ∧
      ((drain b).2.2 ≠ .failed →
        drain (b ++ e) =
          ((drain b).1 ++ (drain (b.drop (drain b).2.1 ++ e)).1,
           (drain b).2.1 + (drain (b.drop (drain b).2.1 ++ e)).2.1,
           (drain (b.drop (drain b).2.1 ++ e)).2.2)) := by
  induction L with
  | zero =>
    intro b hb e
    have hnil : b = [] := List.length_eq_zero.mp (Nat.le_zero.mp hb)
    subst hnil
    constructor
    · intro hf
      simp [drain, drainGo] at hf
    · intro _
      simp [drain, drainGo]
  | succ L ih =>
    intro b hb e
    cases b with
    | nil =>
      constructor
      · intro hf
        simp [drain, drainGo] at hf
      · intro _
        simp [drain, drainGo]
    | cons c rest =>
      rw [drain_cons c rest]
      cases hp : parseResp (c :: rest) with
      | done v n =>
        obtain ⟨hpos, hple, hstab⟩ := parseResp_done _ _ _ hp
        have hdlen : ((c :: rest).drop n).length ≤ L := by
          rw [List.length_drop]
          simp only [List.length_cons] at hb hple ⊢
          omega
        have hbe : (c :: rest) ++ e = c :: (rest ++ e) := List.cons_append ..
        have hpe : parseResp (c :: (rest ++ e)) = .done v n := by
          rw [← hbe]
          exact hstab e
        have hdropapp : (c :: (rest ++ e)).drop n = (c :: rest).drop n ++ e := by
          rw [← hbe]
          exact List.drop_append_of_le_length hple
        obtain ⟨ihf, ihn⟩ := ih ((c :: rest).drop n) hdlen e
        dsimp only
        constructor
        · intro hf
          rw [hbe, drain_cons, hpe]
          dsimp only
          rw [hdropapp, ihf hf]
        · intro hf
          rw [hbe, drain_cons, hpe]
          dsimp only
          rw [hdropapp, ihn hf]
          have hdd : (c :: rest).drop (n + (drain ((c :: rest).drop n)).2.1) =
              ((c :: rest).drop n).drop (drain ((c :: rest).drop n)).2.1 :=
            (List.drop_drop _ _ _).symm
          rw [hdd]
          simp [List.cons_append, Nat.add_assoc]
      | incomplete =>
        dsimp only
        constructor
        · intro hf
          exact absurd hf (by simp)
        · intro _
          simp
      | error =>
        dsimp only
        constructor
        · intro _
          rw [List.cons_append, drain_cons]
          have : parseResp (c :: (rest ++ e)) = .error := by
            rw [← List.cons_append]
            exact parseResp_error _ hp e
          rw [this]
        · intro hf
          exact absurd rfl hf

/-- Feeding chunks one at a time drains exactly the concatenation. -/
theorem feedChunks_eq (chunks : List (List Nat)) :
    ∀ buf, feedChunks chunks buf = drain (buf ++ chunks.flatten) := by
  induction chunks with
  | nil =>
    intro buf
    simp [feedChunks]
  | cons chunk rest ih =>
    intro buf
    unfold feedChunks
    dsimp only
    obtain ⟨haf, han⟩ := drain_append buf.length buf (Nat.le_refl _)
      (chunk ++ rest.flatten)
    split
    · rename_i hd
      rw [show (buf ++ (chunk :: rest).flatten) = buf ++ (chunk ++ rest.flatten)
        from by simp, haf hd, ← hd]
    · rename_i hx hd
      rw [ih (buf.drop (drain buf).2.1 ++ chunk),
        show (buf ++ (chunk :: rest).flatten) = buf ++ (chunk ++ rest.flatten)
          from by simp, han hd, List.append_assoc]

/-- C3: for every byte sequence and every partition of it into chunks,
feeding the chunks one at a time through the resumable reader loop yields
exactly the same sequence of decoded wire values, the same total consumed
byte count, and the same final state as draining the whole sequence at
once. -/
theorem claim_C3_incremental (chunks : List (List Nat)) :
    feedChunks chunks [] = drain chunks.flatten := by
  have h := feedChunks_eq chunks []
  simpa using h

end Moonis
